import Mathlib

/-!
Shallow embedding of the `rust_wasm` repository's core
(`src/game_of_life.rs` and `src/ring_buffer.rs`) and proofs of the
specification's claims about it.

Conventions of the embedding:
* Rust `usize` values are modelled as `Nat` (grid sizes here are far from
  overflow; no arithmetic in the source wraps).
* `Vec<CellValue>` is a `List CellValue`; direct indexing `cells[i]`
  (which panics when out of bounds in Rust) is modelled by `List.getD`
  with default `Dead` at the places where a separate theorem shows the
  index is in bounds, and by `List.get?` where the source itself can
  reach an out-of-bounds index.
* `NonZeroUsize` fields become plain `Nat` fields together with the
  well-formedness predicate `Field.Wf` demanding positivity.
* fallible code returns `Option`/`Except` exactly as the source does.
-/

namespace RustWasm

/-- `CellValue` from `game_of_life.rs`: `Dead = 0`, `Alive = 1`. -/
inductive CellValue where
  | Dead : CellValue
  | Alive : CellValue
deriving DecidableEq, Repr

/-- `CellValue::other`. -/
def CellValue.other : CellValue → CellValue
  | .Dead => .Alive
  | .Alive => .Dead

/-- The numeric value used by `count += self.cells[...] as u8`.
(The sum of eight such terms is at most 8, so `u8` never overflows and
`Nat` models it exactly.) -/
def CellValue.toNat : CellValue → Nat
  | .Dead => 0
  | .Alive => 1

/-- `struct Field`: `width` and `height` are `NonZeroUsize` in the source;
here they are `Nat` and positivity is part of `Field.Wf`. -/
structure Field where
  width : Nat
  height : Nat
  cells : List CellValue
  swap_cells : List CellValue
deriving DecidableEq, Repr

/-- Well-formedness: what holds of every `Field` the source can construct
(`NonZeroUsize` dimensions, both buffers of length `width * height`). -/
def Field.Wf (f : Field) : Prop :=
  0 < f.width ∧ 0 < f.height ∧
    f.cells.length = f.width * f.height ∧
    f.swap_cells.length = f.width * f.height

instance (f : Field) : Decidable f.Wf := by
  unfold Field.Wf; infer_instance

/-- `Field::new`. -/
def Field.new (width height : Nat) : Field :=
  let cell_count := width * height
  { width := width
    height := height
    cells := List.replicate cell_count CellValue.Dead
    swap_cells := List.replicate cell_count CellValue.Dead }

/-- `Field::generate_by_fn`. -/
def Field.generate_by_fn (width height : Nat) (random_bool : Nat → Bool) : Field :=
  let cell_count := width * height
  { width := width
    height := height
    cells := (List.range cell_count).map fun i =>
      if random_bool i then CellValue.Alive else CellValue.Dead
    swap_cells := List.replicate cell_count CellValue.Dead }

/-- `Field::get_height`. -/
def Field.get_height (f : Field) : Nat := f.height

/-- `Field::get_width`. -/
def Field.get_width (f : Field) : Nat := f.width

/-- `Field::coords_to_index_unchecked`: `(row * self.width.get()) + col`. -/
def Field.coords_to_index_unchecked (f : Field) (row col : Nat) : Nat :=
  row * f.width + col

/-- `Field::coords_to_index_checked`, translated exactly as written: the
source compares `row` with `self.width` and `col` with `self.height`. -/
def Field.coords_to_index_checked (f : Field) (row col : Nat) : Option Nat :=
  if row ≥ f.width then none
  else if col ≥ f.height then none
  else some (f.coords_to_index_unchecked row col)

/-- `Field::get_by_coords`. The inner `List.get?` models the direct
indexing `self.cells[index]`: a `none` arising from it (rather than from
the checked coordinate test) corresponds to an out-of-bounds panic in the
source. -/
def Field.get_by_coords (f : Field) (row col : Nat) : Option CellValue :=
  (f.coords_to_index_checked row col).bind fun index => f.cells.get? index

/-- `Field::toggle_by_coords`: on success the returned field is the
mutated `self`; `none` from the inner lookup corresponds to an
out-of-bounds panic of `self.cells[index]` in the source. -/
def Field.toggle_by_coords (f : Field) (row col : Nat) : Option Field :=
  (f.coords_to_index_checked row col).bind fun index =>
    (f.cells.get? index).map fun v =>
      { f with cells := f.cells.set index v.other }

/-- `Field::set_by_coords`. -/
def Field.set_by_coords (f : Field) (row col : Nat) (value : CellValue) : Option Field :=
  (f.coords_to_index_checked row col).map fun index =>
    { f with cells := f.cells.set index value }

/-- Reading `self.cells[index]` where a bounds theorem (claim C9) shows
`index` is in range. -/
def Field.cellAt (f : Field) (index : Nat) : CellValue :=
  f.cells.getD index CellValue.Dead

/-- `Field::next_coord_wrapped`. -/
def Field.next_coord_wrapped (value max_value : Nat) : Nat :=
  if value ≥ max_value then 0 else value + 1

/-- `Field::prev_coord_wrapped`. -/
def Field.prev_coord_wrapped (value max_value : Nat) : Nat :=
  if value = 0 then max_value else value - 1

/-- `Field::count_live_neighbours`: eight direct lookups with
wrap-arithmetic coordinates, summed in source order. -/
def Field.count_live_neighbours (f : Field) (row col max_row max_col : Nat) : Nat :=
  let row_top := Field.prev_coord_wrapped row max_row
  let row_bottom := Field.next_coord_wrapped row max_row
  let col_left := Field.prev_coord_wrapped col max_col
  let col_right := Field.next_coord_wrapped col max_col
  (f.cellAt (f.coords_to_index_unchecked row_top col_left)).toNat
    + (f.cellAt (f.coords_to_index_unchecked row_top col)).toNat
    + (f.cellAt (f.coords_to_index_unchecked row_top col_right)).toNat
    + (f.cellAt (f.coords_to_index_unchecked row col_left)).toNat
    + (f.cellAt (f.coords_to_index_unchecked row col_right)).toNat
    + (f.cellAt (f.coords_to_index_unchecked row_bottom col_left)).toNat
    + (f.cellAt (f.coords_to_index_unchecked row_bottom col)).toNat
    + (f.cellAt (f.coords_to_index_unchecked row_bottom col_right)).toNat

/-- The eight buffer indices `count_live_neighbours` reads, in source
order (used to state the bounds-safety claim). -/
def Field.neighbour_indices (f : Field) (row col max_row max_col : Nat) : List Nat :=
  let row_top := Field.prev_coord_wrapped row max_row
  let row_bottom := Field.next_coord_wrapped row max_row
  let col_left := Field.prev_coord_wrapped col max_col
  let col_right := Field.next_coord_wrapped col max_col
  [f.coords_to_index_unchecked row_top col_left,
   f.coords_to_index_unchecked row_top col,
   f.coords_to_index_unchecked row_top col_right,
   f.coords_to_index_unchecked row col_left,
   f.coords_to_index_unchecked row col_right,
   f.coords_to_index_unchecked row_bottom col_left,
   f.coords_to_index_unchecked row_bottom col,
   f.coords_to_index_unchecked row_bottom col_right]

/-- `Field::count_live_neighbours_slow`: the modulo-based reference
implementation, a nested loop over `[height-1, 0, 1] × [width-1, 0, 1]`
skipping the pair whose both components equal zero. -/
def Field.count_live_neighbours_slow (f : Field) (row col : Nat) : Nat :=
  let width := f.width
  let height := f.height
  [height - 1, 0, 1].foldl (fun count delta_row =>
    [width - 1, 0, 1].foldl (fun count delta_col =>
      if delta_row = 0 ∧ delta_col = 0 then count
      else
        let check_row := (row + delta_row) % height
        let check_col := (col + delta_col) % width
        count + (f.cellAt (f.coords_to_index_unchecked check_row check_col)).toNat)
      count)
    0

/-- `Field::calc_new_value`. -/
def Field.calc_new_value (old_value : CellValue) (live_neighbours : Nat) : CellValue :=
  match old_value with
  | .Alive =>
      if live_neighbours = 2 ∨ live_neighbours = 3 then CellValue.Alive else CellValue.Dead
  | .Dead =>
      if live_neighbours = 3 then CellValue.Alive else CellValue.Dead

/-- Rust's `slice::chunks(w)`: successive sublists of length `w`, the last
possibly shorter. (`chunks(0)` panics in Rust; the `0` case here is
unreachable because `width` is nonzero.) -/
def chunks (w : Nat) (l : List α) : List (List α) :=
  match l with
  | [] => []
  | x :: xs =>
    match w with
    | 0 => []
    | w' + 1 => (x :: xs).take (w' + 1) :: chunks (w' + 1) (xs.drop w')
termination_by l.length
decreasing_by simp; omega

/-- The inner loop of `Field::update` over one row: `col_no` is the
`enumerate()` counter, writes go into the swap buffer by index, and
`has_alive` accumulates `|| (new_value == Alive)`. -/
def Field.update_row (f : Field) (row_no max_row max_col : Nat) :
    List CellValue → Nat → List CellValue × Bool → List CellValue × Bool
  | [], _, acc => acc
  | value :: rest, col_no, (swap, has_alive) =>
    let live_neighbours := f.count_live_neighbours row_no col_no max_row max_col
    let index := f.coords_to_index_unchecked row_no col_no
    let new_value := Field.calc_new_value value live_neighbours
    Field.update_row f row_no max_row max_col rest (col_no + 1)
      (swap.set index new_value, has_alive || (new_value == CellValue.Alive))

/-- The outer loop of `Field::update` over `self.cells.chunks(width)`,
with `row_no` the `enumerate()` counter. -/
def Field.update_rows (f : Field) (max_row max_col : Nat) :
    List (List CellValue) → Nat → List CellValue × Bool → List CellValue × Bool
  | [], _, acc => acc
  | row :: rest, row_no, acc =>
    Field.update_rows f max_row max_col rest (row_no + 1)
      (Field.update_row f row_no max_row max_col row 0 acc)

/-- `Field::update`: compute every cell of the next generation into the
swap buffer, then `mem::swap` the two buffers; returns `has_alive`. -/
def Field.update (f : Field) : Field × Bool :=
  let max_col := f.width - 1
  let max_row := f.height - 1
  let result := Field.update_rows f max_row max_col (chunks f.width f.cells) 0
    (f.swap_cells, false)
  ({ f with cells := result.1, swap_cells := f.cells }, result.2)

/-- `ParseError` from `game_of_life.rs`. -/
inductive ParseError where
  | EmptyString : ParseError
  | UnknownChar : ParseError
  | WidthMismatch : ParseError
deriving DecidableEq, Repr

/-- Rust `char::is_whitespace`: the Unicode `White_Space` property. -/
def isRustWhitespace (c : Char) : Bool :=
  let n := c.toNat
  (0x09 ≤ n && n ≤ 0x0D) || n == 0x20 || n == 0x85 || n == 0xA0 || n == 0x1680 ||
    (0x2000 ≤ n && n ≤ 0x200A) || n == 0x2028 || n == 0x2029 || n == 0x202F ||
    n == 0x205F || n == 0x3000

/-- Rust `str::trim_start` on a character list. -/
def rustTrimStart (s : List Char) : List Char :=
  s.dropWhile isRustWhitespace

/-- Rust `str::trim_end` on a character list. -/
def rustTrimEnd (s : List Char) : List Char :=
  (s.reverse.dropWhile isRustWhitespace).reverse

/-- Rust `str::trim` on a character list. -/
def rustTrim (s : List Char) : List Char :=
  rustTrimEnd (rustTrimStart s)

/-- Rust `str::lines`: lines are split at `'\n'` or at `"\r\n"` (treated
as one line ending); the final line ending is optional, and a final
segment not terminated by a line ending keeps any trailing `'\r'`. -/
def rustLines : List Char → List (List Char)
  | [] => []
  | c :: rest =>
    if c = '\n' then [] :: rustLines rest
    else if c = '\r' ∧ rest.head? = some '\n' then
      -- the "\r\n" line ending: `rustLines rest` is `[] :: rustLines rest2`
      -- for `rest = '\n' :: rest2`, which is exactly the lines of the input
      rustLines rest
    else
      match rustLines rest with
      | [] => [[c]]
      | seg :: segs => (c :: seg) :: segs

/-- The body of the character loop in `Field::from_str_line`: `'#'` is
`Alive`, `'_'` is `Dead`, anything else is `UnknownChar`. -/
def parse_cells : List Char → Except ParseError (List CellValue)
  | [] => Except.ok []
  | char :: rest =>
    let val? : Option CellValue :=
      if char = '#' then some CellValue.Alive
      else if char = '_' then some CellValue.Dead
      else none
    match val? with
    | none => Except.error ParseError.UnknownChar
    | some val =>
      match parse_cells rest with
      | Except.error e => Except.error e
      | Except.ok vec => Except.ok (val :: vec)

/-- `Field::from_str_line` (the `expected_width` argument of the source
only pre-sizes the vector and is semantically irrelevant). -/
def from_str_line (str : List Char) : Except ParseError (List CellValue) :=
  parse_cells (rustTrim str)

/-- The line loop of `Field::from_str`: carries the `width : Option Nat`
state (`get_or_insert` on the first line) and accumulates the parsed
lines in order. -/
def parse_lines : List (List Char) → Option Nat →
    Except ParseError (Option Nat × List (List CellValue))
  | [], width => Except.ok (width, [])
  | str_line :: rest, width =>
    match from_str_line str_line with
    | Except.error e => Except.error e
    | Except.ok line =>
      let line_width := line.length
      let expected_width := width.getD line_width
      if line_width ≠ expected_width then Except.error ParseError.WidthMismatch
      else
        match parse_lines rest (some expected_width) with
        | Except.error e => Except.error e
        | Except.ok (w, lines) => Except.ok (w, line :: lines)

/-- `Field::from_str`. `width.getD 0` models `width.unwrap().try_into().unwrap()`:
the claim-C10 theorem shows that on every success the width is present and
positive, so neither unwrap can panic. -/
def Field.from_str (s : List Char) : Except ParseError Field :=
  let str := rustTrim s
  if str = [] then Except.error ParseError.EmptyString
  else
    match parse_lines (rustLines str) none with
    | Except.error e => Except.error e
    | Except.ok (width, lines) =>
      let height := lines.length
      let cells := lines.flatten
      Except.ok
        { width := width.getD 0
          height := height
          cells := cells
          swap_cells := List.replicate cells.length CellValue.Dead }

/-- `let char = if value == CellValue::Alive { '#' } else { '_' }` from
the `Display` impl. -/
def cellChar (value : CellValue) : Char :=
  if value = CellValue.Alive then '#' else '_'

/-- `impl Display for Field`: each chunk of `width` cells becomes a row of
`'#'`/`'_'` characters followed by `'\n'`. -/
def Field.fmt (f : Field) : List Char :=
  (chunks f.width f.cells).flatMap fun row => row.map cellChar ++ ['\n']

/-- The value a recognized character parses to (total helper: the parser
rejects anything outside `{'#', '_'}` before this matters). -/
def charToCell (c : Char) : CellValue :=
  if c = '#' then CellValue.Alive else CellValue.Dead

/-- `RingBuffer` from `ring_buffer.rs`. The backing `VecDeque` is modelled
as the list of its elements front-to-back together with its fixed
capacity: `VecDeque::with_capacity(c)` allocates capacity `c`, and `push`
keeps the length at most the capacity (for `capacity ≥ 1`), so the deque
never reallocates and `self.inner.capacity()` stays `c`. -/
structure RingBuffer (T : Type) where
  inner : List T
  capacity : Nat
deriving DecidableEq, Repr

/-- `RingBuffer::new`. -/
def RingBuffer.new (T : Type) (capacity : Nat) : RingBuffer T :=
  { inner := [], capacity := capacity }

/-- `RingBuffer::push`: `pop_front` when at capacity, then `push_back`. -/
def RingBuffer.push (b : RingBuffer T) (value : T) : RingBuffer T :=
  let inner := if b.inner.length ≥ b.capacity then b.inner.tail else b.inner
  { b with inner := inner ++ [value] }

/-- `RingBuffer::as_slices`: the two contiguous spans of the deque; their
concatenation is the contents oldest-to-newest, which is exactly the
modelled list. -/
def RingBuffer.as_slices (b : RingBuffer T) : List T × List T :=
  (b.inner, [])

/-- `RingBuffer::len`. -/
def RingBuffer.len (b : RingBuffer T) : Nat := b.inner.length

/-- `RingBuffer::truncate` (clears the buffer). -/
def RingBuffer.truncate (b : RingBuffer T) : RingBuffer T :=
  { b with inner := [] }

/-- A sequence of pushes, oldest first. -/
def RingBuffer.pushAll (b : RingBuffer T) (values : List T) : RingBuffer T :=
  values.foldl RingBuffer.push b

/-! ### Spec-side definitions

These follow the specification's words, for the claims that compare the
code against the spec's description (the rule, toroidal addressing, the
text grammar and whitespace normalization). -/

/-- The spec's standard Game of Life rule: an Alive cell survives iff it
has exactly 2 or 3 live neighbours; a Dead cell becomes Alive iff it has
exactly 3 live neighbours; all other cases yield Dead. -/
def specRule (old : CellValue) (live : Nat) : CellValue :=
  match old with
  | .Alive => if live = 2 ∨ live = 3 then CellValue.Alive else CellValue.Dead
  | .Dead => if live = 3 then CellValue.Alive else CellValue.Dead

/-- The spec's toroidal neighbour count: the number of Alive cells among
the 8 neighbours of `(row, col)`, each neighbour reached by modular
(wrap-around) addressing of the row and column offsets −1, 0, +1. -/
def Field.specLiveNeighbours (f : Field) (row col : Nat) : Nat :=
  let up := (row + (f.height - 1)) % f.height
  let down := (row + 1) % f.height
  let left := (col + (f.width - 1)) % f.width
  let right := (col + 1) % f.width
  (f.cellAt (up * f.width + left)).toNat
    + (f.cellAt (up * f.width + col)).toNat
    + (f.cellAt (up * f.width + right)).toNat
    + (f.cellAt (row * f.width + left)).toNat
    + (f.cellAt (row * f.width + right)).toNat
    + (f.cellAt (down * f.width + left)).toNat
    + (f.cellAt (down * f.width + col)).toNat
    + (f.cellAt (down * f.width + right)).toNat

/-- A trimmed line is over the two recognized characters only. -/
def lineValid (l : List Char) : Prop :=
  ∀ c ∈ rustTrim l, c = '#' ∨ c = '_'

instance (l : List Char) : Decidable (lineValid l) := by
  unfold lineValid; infer_instance

/-- The length of a trimmed line. -/
def trimLen (l : List Char) : Nat :=
  (rustTrim l).length

/-- The spec's grammar (§6): after trimming the whole input it is
nonempty; every line, once trimmed, consists of `'#'`/`'_'` only and has
the same character count as the first line. -/
def grammarAccepts (s : List Char) : Prop :=
  rustTrim s ≠ [] ∧
    ∀ l ∈ rustLines (rustTrim s),
      lineValid l ∧ trimLen l = trimLen ((rustLines (rustTrim s)).getD 0 [])

instance (s : List Char) : Decidable (grammarAccepts s) := by
  unfold grammarAccepts; infer_instance

/-- The spec's whitespace normalization: the input with whole-input and
per-line leading/trailing whitespace trimmed and exactly one line break
terminating each row. -/
def normalizeText (s : List Char) : List Char :=
  (rustLines (rustTrim s)).flatMap fun line => rustTrim line ++ ['\n']

/-! ### Wrap-arithmetic bridges -/

theorem prev_coord_wrapped_eq_mod {r h : Nat} (hr : r < h) :
    Field.prev_coord_wrapped r (h - 1) = (r + (h - 1)) % h := by
  unfold Field.prev_coord_wrapped
  rcases Nat.eq_zero_or_pos r with h0 | h0
  · subst h0
    rw [if_pos rfl, Nat.zero_add, Nat.mod_eq_of_lt (by omega)]
  · rw [if_neg (by omega)]
    have e : r + (h - 1) = (r - 1) + h := by omega
    rw [e, Nat.add_mod_right, Nat.mod_eq_of_lt (by omega)]

theorem next_coord_wrapped_eq_mod {r h : Nat} (hr : r < h) :
    Field.next_coord_wrapped r (h - 1) = (r + 1) % h := by
  unfold Field.next_coord_wrapped
  by_cases hc : r ≥ h - 1
  · have e : r + 1 = h := by omega
    rw [if_pos hc, e, Nat.mod_self]
  · rw [if_neg hc, Nat.mod_eq_of_lt (by omega)]

theorem index_div_width {r c w : Nat} (hc : c < w) : (r * w + c) / w = r := by
  rw [Nat.mul_comm r w, Nat.mul_add_div (by omega), Nat.div_eq_of_lt hc, Nat.add_zero]

theorem index_mod_width {r c w : Nat} (hc : c < w) : (r * w + c) % w = c := by
  rw [Nat.mul_comm r w, Nat.mul_add_mod, Nat.mod_eq_of_lt hc]

theorem prev_coord_wrapped_le {v m : Nat} (h : v ≤ m) :
    Field.prev_coord_wrapped v m ≤ m := by
  unfold Field.prev_coord_wrapped; split <;> omega

theorem next_coord_wrapped_le {v m : Nat} :
    Field.next_coord_wrapped v m ≤ m := by
  unfold Field.next_coord_wrapped; split <;> omega

theorem coords_index_lt {f : Field} {r c : Nat} (hr : r < f.height) (hc : c < f.width) :
    f.coords_to_index_unchecked r c < f.width * f.height := by
  unfold Field.coords_to_index_unchecked
  calc r * f.width + c < r * f.width + f.width := by omega
    _ = (r + 1) * f.width := by ring
    _ ≤ f.height * f.width := Nat.mul_le_mul_right _ (by omega)
    _ = f.width * f.height := Nat.mul_comm _ _

/-! ### Characterizing `Field.update` -/

/-- The value `update` computes for the cell at linear index `i`. -/
def Field.new_cell_at (f : Field) (max_row max_col i : Nat) : CellValue :=
  Field.calc_new_value (f.cellAt i)
    (f.count_live_neighbours (i / f.width) (i % f.width) max_row max_col)

theorem getD_set (l : List α) (i j : Nat) (a d : α) :
    (l.set i a).getD j d = if i = j ∧ i < l.length then a else l.getD j d := by
  rw [List.getD_eq_getElem?_getD, List.getD_eq_getElem?_getD, List.getElem?_set]
  by_cases h : i = j
  · subst h
    by_cases h2 : i < l.length
    · simp [h2]
    · rw [if_pos rfl, if_neg h2, if_neg (fun hc => h2 hc.2),
        List.getElem?_eq_none (by omega)]
  · simp [h]

theorem getD_eq_default_of_le (l : List α) {j : Nat} (d : α) (h : l.length ≤ j) :
    l.getD j d = d := by
  rw [List.getD_eq_getElem?_getD, List.getElem?_eq_none h]
  rfl

theorem update_row_spec (f : Field) (mr mc row_no : Nat) (vs : List CellValue) :
    ∀ (col_no : Nat) (swap : List CellValue) (ha : Bool),
    0 < f.width →
    col_no + vs.length ≤ f.width →
    (∀ j, j < vs.length → vs.getD j CellValue.Dead
        = f.cellAt (row_no * f.width + col_no + j)) →
    (Field.update_row f row_no mr mc vs col_no (swap, ha)).1.length = swap.length
    ∧ (∀ i, (Field.update_row f row_no mr mc vs col_no (swap, ha)).1.getD i CellValue.Dead
        = if row_no * f.width + col_no ≤ i ∧ i < row_no * f.width + col_no + vs.length
            ∧ i < swap.length
          then f.new_cell_at mr mc i
          else swap.getD i CellValue.Dead)
    ∧ ((Field.update_row f row_no mr mc vs col_no (swap, ha)).2 = true
        ↔ ha = true ∨ ∃ i, row_no * f.width + col_no ≤ i
            ∧ i < row_no * f.width + col_no + vs.length
            ∧ f.new_cell_at mr mc i = CellValue.Alive) := by
  induction vs with
  | nil =>
    intro col_no swap ha hw hcol hvals
    simp only [List.length_nil, Nat.add_zero]
    refine ⟨rfl, ?_, ?_⟩
    · intro i
      rw [if_neg (by omega)]
      rfl
    · show ha = true ↔ _
      constructor
      · exact Or.inl
      · rintro (h | ⟨i, h1, h2, _⟩)
        · exact h
        · omega
  | cons v rest ih =>
    intro col_no swap ha hw hcol hvals
    simp only [List.length_cons] at hcol ⊢
    have hcol0 : col_no < f.width := by omega
    have hv0 : v = f.cellAt (row_no * f.width + col_no) := by
      have h := hvals 0 (by simp)
      simpa using h
    have hnv : Field.calc_new_value v (f.count_live_neighbours row_no col_no mr mc)
        = f.new_cell_at mr mc (row_no * f.width + col_no) := by
      rw [Field.new_cell_at, index_div_width hcol0, index_mod_width hcol0, hv0]
    have hvals' : ∀ j, j < rest.length → rest.getD j CellValue.Dead
        = f.cellAt (row_no * f.width + (col_no + 1) + j) := by
      intro j hj
      have h := hvals (j + 1) (by simp only [List.length_cons]; omega)
      rw [List.getD_cons_succ] at h
      rw [h]
      congr 1
      omega
    obtain ⟨ih1, ih2, ih3⟩ := ih (col_no + 1)
      (swap.set (row_no * f.width + col_no)
        (Field.calc_new_value v (f.count_live_neighbours row_no col_no mr mc)))
      (ha || (Field.calc_new_value v (f.count_live_neighbours row_no col_no mr mc)
        == CellValue.Alive))
      hw (by omega) hvals'
    simp only [Field.update_row, Field.coords_to_index_unchecked]
    refine ⟨by rw [ih1, List.length_set], ?_, ?_⟩
    · intro i
      rw [ih2 i, getD_set, List.length_set]
      rw [hnv]
      by_cases hrest : row_no * f.width + (col_no + 1) ≤ i
          ∧ i < row_no * f.width + (col_no + 1) + rest.length ∧ i < swap.length
      · rw [if_pos hrest, if_pos (by omega)]
      · rw [if_neg hrest]
        by_cases hfst : row_no * f.width + col_no = i ∧ row_no * f.width + col_no < swap.length
        · rw [if_pos hfst, if_pos (by omega)]
          rw [← hfst.1]
        · rw [if_neg hfst, if_neg (by omega)]
    · rw [ih3]
      simp only [Bool.or_eq_true, beq_iff_eq, hnv]
      constructor
      · rintro ((h | h) | ⟨i, h1, h2, h3⟩)
        · exact Or.inl h
        · exact Or.inr ⟨row_no * f.width + col_no, by omega, by omega, h⟩
        · exact Or.inr ⟨i, by omega, by omega, h3⟩
      · rintro (h | ⟨i, h1, h2, h3⟩)
        · exact Or.inl (Or.inl h)
        · by_cases hi : i = row_no * f.width + col_no
          · subst hi
            exact Or.inl (Or.inr h3)
          · exact Or.inr ⟨i, by omega, by omega, h3⟩

theorem update_rows_spec (f : Field) (mr mc : Nat) (rows : List (List CellValue)) :
    ∀ (row_no : Nat) (swap : List CellValue) (ha : Bool),
    0 < f.width →
    (∀ k, k < rows.length → (rows.getD k []).length = f.width
        ∧ ∀ j, j < f.width → (rows.getD k []).getD j CellValue.Dead
            = f.cellAt ((row_no + k) * f.width + j)) →
    (Field.update_rows f mr mc rows row_no (swap, ha)).1.length = swap.length
    ∧ (∀ i, (Field.update_rows f mr mc rows row_no (swap, ha)).1.getD i CellValue.Dead
        = if row_no * f.width ≤ i ∧ i < (row_no + rows.length) * f.width ∧ i < swap.length
          then f.new_cell_at mr mc i
          else swap.getD i CellValue.Dead)
    ∧ ((Field.update_rows f mr mc rows row_no (swap, ha)).2 = true
        ↔ ha = true ∨ ∃ i, row_no * f.width ≤ i ∧ i < (row_no + rows.length) * f.width
            ∧ f.new_cell_at mr mc i = CellValue.Alive) := by
  induction rows with
  | nil =>
    intro row_no swap ha hw hrows
    simp only [List.length_nil, Nat.add_zero]
    refine ⟨rfl, ?_, ?_⟩
    · intro i
      rw [if_neg (by omega)]
      rfl
    · show ha = true ↔ _
      constructor
      · exact Or.inl
      · rintro (h | ⟨i, h1, h2, _⟩)
        · exact h
        · omega
  | cons row rest ih =>
    intro row_no swap ha hw hrows
    simp only [List.length_cons]
    have hrow0 := hrows 0 (by simp only [List.length_cons]; omega)
    rw [List.getD_cons_zero] at hrow0
    have hvals : ∀ j, j < row.length → row.getD j CellValue.Dead
        = f.cellAt (row_no * f.width + 0 + j) := by
      intro j hj
      rw [hrow0.2 j (by omega)]
      simp
    obtain ⟨r1, r2, r3⟩ := update_row_spec f mr mc row_no row 0 swap ha hw
      (by omega) hvals
    have hrows' : ∀ k, k < rest.length → (rest.getD k []).length = f.width
        ∧ ∀ j, j < f.width → (rest.getD k []).getD j CellValue.Dead
            = f.cellAt ((row_no + 1 + k) * f.width + j) := by
      intro k hk
      have h := hrows (k + 1) (by simp only [List.length_cons]; omega)
      rw [List.getD_cons_succ] at h
      refine ⟨h.1, fun j hj => ?_⟩
      rw [h.2 j hj]
      have e : row_no + (k + 1) = row_no + 1 + k := by omega
      rw [e]
    rcases hX : Field.update_row f row_no mr mc row 0 (swap, ha) with ⟨swap₁, ha₁⟩
    rw [hX] at r1 r2 r3
    dsimp only at r1 r2 r3
    obtain ⟨i1, i2, i3⟩ := ih (row_no + 1) swap₁ ha₁ hw hrows'
    simp only [Field.update_rows]
    rw [hX]
    have e1 : (row_no + 1) * f.width = row_no * f.width + f.width := by ring
    have e2 : (row_no + 1 + rest.length) * f.width
        = row_no * f.width + f.width + rest.length * f.width := by ring
    have e3 : (row_no + (rest.length + 1)) * f.width
        = row_no * f.width + f.width + rest.length * f.width := by ring
    refine ⟨by rw [i1, r1], ?_, ?_⟩
    · intro i
      rw [i2 i, r1]
      by_cases hrest : (row_no + 1) * f.width ≤ i
          ∧ i < (row_no + 1 + rest.length) * f.width ∧ i < swap.length
      · rw [if_pos hrest]
        rw [e1, e2] at hrest
        rw [if_pos (by rw [e3]; omega)]
      · rw [if_neg hrest, r2 i]
        rw [e1, e2] at hrest
        by_cases hfst : row_no * f.width + 0 ≤ i
            ∧ i < row_no * f.width + 0 + row.length ∧ i < swap.length
        · rw [if_pos hfst]
          have hrl := hrow0.1
          rw [if_pos (by rw [e3]; omega)]
        · rw [if_neg hfst]
          have hrl := hrow0.1
          rw [if_neg (by rw [e3]; omega)]
    · rw [i3, r3]
      have hrl := hrow0.1
      constructor
      · rintro ((h | ⟨i, h1, h2, h3⟩) | ⟨i, h1, h2, h3⟩)
        · exact Or.inl h
        · exact Or.inr ⟨i, by omega, by rw [e3]; omega, h3⟩
        · rw [e1] at h1
          rw [e2] at h2
          exact Or.inr ⟨i, by omega, by rw [e3]; omega, h3⟩
      · rintro (h | ⟨i, h1, h2, h3⟩)
        · exact Or.inl (Or.inl h)
        · rw [e3] at h2
          by_cases hi : i < row_no * f.width + row.length
          · exact Or.inl (Or.inr ⟨i, by omega, by omega, h3⟩)
          · exact Or.inr ⟨i, by rw [e1]; omega, by rw [e2]; omega, h3⟩

theorem chunks_cons_eq {w : Nat} (hw : 0 < w) (l : List α) (hl : l ≠ []) :
    chunks w l = l.take w :: chunks w (l.drop w) := by
  cases l with
  | nil => exact absurd rfl hl
  | cons x xs =>
    cases w with
    | zero => omega
    | succ w' => simp [chunks]

theorem chunks_eq_of_length {w : Nat} (hw : 0 < w) :
    ∀ (hgt : Nat) (l : List α), l.length = hgt * w →
      chunks w l = (List.range hgt).map fun k => (l.drop (k * w)).take w := by
  intro hgt
  induction hgt with
  | zero =>
    intro l hl
    have hnil : l = [] := List.eq_nil_of_length_eq_zero (by simpa using hl)
    subst hnil
    simp [chunks]
  | succ n ihn =>
    intro l hl
    have hpos : 0 < (n + 1) * w := Nat.mul_pos (Nat.succ_pos n) hw
    have hne : l ≠ [] := by
      intro e
      subst e
      simp at hl
      omega
    have hlen : (l.drop w).length = n * w := by
      rw [List.length_drop, hl]
      have e : (n + 1) * w = n * w + w := by ring
      omega
    rw [chunks_cons_eq hw l hne, List.range_succ_eq_map, List.map_cons, List.map_map]
    congr 1
    · simp
    · rw [ihn (l.drop w) hlen]
      apply List.map_congr_left
      intro k _
      simp only [Function.comp_apply]
      rw [List.drop_drop]
      congr 2
      rw [Nat.succ_mul]
      omega

theorem chunks_props {w hgt : Nat} (hw : 0 < w) (l : List α) (hl : l.length = hgt * w)
    (d : α) :
    (chunks w l).length = hgt
    ∧ ∀ k, k < hgt → ((chunks w l).getD k []).length = w
        ∧ ∀ j, j < w → ((chunks w l).getD k []).getD j d = l.getD (k * w + j) d := by
  rw [chunks_eq_of_length hw hgt l hl]
  refine ⟨by simp, ?_⟩
  intro k hk
  have hgd : ((List.range hgt).map fun k => (l.drop (k * w)).take w).getD k []
      = (l.drop (k * w)).take w := by
    rw [List.getD_eq_getElem?_getD, List.getElem?_map, List.getElem?_range hk]
    rfl
  rw [hgd]
  have esplit : hgt * w = k * w + (hgt - k) * w := by
    have e : hgt = k + (hgt - k) := by omega
    calc hgt * w = (k + (hgt - k)) * w := by rw [← e]
      _ = k * w + (hgt - k) * w := by ring
  have ege : w ≤ (hgt - k) * w := by
    have := Nat.mul_le_mul_right w (show 1 ≤ hgt - k by omega)
    simpa using this
  constructor
  · rw [List.length_take, List.length_drop, hl]
    omega
  · intro j hj
    rw [List.getD_eq_getElem?_getD, List.getD_eq_getElem?_getD,
      List.getElem?_take_of_lt hj, List.getElem?_drop]

/-- The full behaviour of `Field.update` on a well-formed field: the new
current generation has the right length, each of its cells is
`new_cell_at`, the returned boolean is the aliveness of the new
generation, the dimensions are unchanged, and the previous generation is
kept in the swap buffer. -/
theorem update_spec (f : Field) (hf : f.Wf) :
    (f.update).1.cells.length = f.width * f.height
    ∧ (∀ i, (f.update).1.cells.getD i CellValue.Dead
        = if i < f.width * f.height then f.new_cell_at (f.height - 1) (f.width - 1) i
          else CellValue.Dead)
    ∧ ((f.update).2 = true ↔ ∃ i, i < f.width * f.height
        ∧ f.new_cell_at (f.height - 1) (f.width - 1) i = CellValue.Alive)
    ∧ (f.update).1.width = f.width ∧ (f.update).1.height = f.height
    ∧ (f.update).1.swap_cells = f.cells := by
  obtain ⟨hw, hh, hc, hs⟩ := hf
  have hcl : f.cells.length = f.height * f.width := by rw [hc]; ring
  obtain ⟨cl, cspec⟩ := chunks_props hw f.cells hcl CellValue.Dead
  have hrows : ∀ k, k < (chunks f.width f.cells).length →
      ((chunks f.width f.cells).getD k []).length = f.width
      ∧ ∀ j, j < f.width → ((chunks f.width f.cells).getD k []).getD j CellValue.Dead
          = f.cellAt ((0 + k) * f.width + j) := by
    intro k hk
    rw [cl] at hk
    obtain ⟨c1, c2⟩ := cspec k hk
    refine ⟨c1, fun j hj => ?_⟩
    rw [c2 j hj]
    simp [Field.cellAt]
  obtain ⟨u1, u2, u3⟩ := update_rows_spec f (f.height - 1) (f.width - 1)
    (chunks f.width f.cells) 0 f.swap_cells false hw hrows
  rw [cl] at u2 u3
  have hrange : (0 + f.height) * f.width = f.width * f.height := by ring
  simp only [Field.update]
  refine ⟨by rw [u1, hs], ?_, ?_, trivial, trivial, trivial⟩
  · intro i
    rw [u2 i]
    by_cases hi : i < f.width * f.height
    · rw [if_pos (by rw [hrange, hs]; omega), if_pos hi]
    · rw [if_neg (by rw [hrange, hs]; omega), if_neg hi,
        getD_eq_default_of_le _ _ (by omega)]
  · rw [u3]
    constructor
    · rintro (h | ⟨i, h1, h2, h3⟩)
      · exact absurd h (by simp)
      · rw [hrange] at h2
        exact ⟨i, h2, h3⟩
    · rintro ⟨i, h1, h2⟩
      exact Or.inr ⟨i, by omega, by rw [hrange]; omega, h2⟩

theorem calc_eq_specRule (o : CellValue) (n : Nat) :
    Field.calc_new_value o n = specRule o n := by
  cases o <;> rfl

theorem count_eq_spec (f : Field) {r c : Nat} (hr : r < f.height) (hc : c < f.width) :
    f.count_live_neighbours r c (f.height - 1) (f.width - 1)
      = f.specLiveNeighbours r c := by
  simp only [Field.count_live_neighbours, Field.specLiveNeighbours,
    Field.coords_to_index_unchecked]
  rw [prev_coord_wrapped_eq_mod hr, next_coord_wrapped_eq_mod hr,
    prev_coord_wrapped_eq_mod hc, next_coord_wrapped_eq_mod hc]

theorem mem_iff_getD {l : List α} {a : α} (d : α) :
    a ∈ l ↔ ∃ i, i < l.length ∧ l.getD i d = a := by
  rw [List.mem_iff_getElem]
  constructor
  · rintro ⟨n, hn, he⟩
    exact ⟨n, hn, by rw [List.getD_eq_getElem?_getD, List.getElem?_eq_getElem hn]; exact he⟩
  · rintro ⟨n, hn, he⟩
    refine ⟨n, hn, ?_⟩
    rw [List.getD_eq_getElem?_getD, List.getElem?_eq_getElem hn] at he
    exact he

theorem cellAt_new (w h i : Nat) : (Field.new w h).cellAt i = CellValue.Dead := by
  simp only [Field.new, Field.cellAt, List.getD_eq_getElem?_getD, List.getElem?_replicate]
  split <;> rfl

theorem count_new_zero (w h r c mr mc : Nat) :
    (Field.new w h).count_live_neighbours r c mr mc = 0 := by
  simp [Field.count_live_neighbours, cellAt_new, CellValue.toNat]

theorem new_cell_at_new (w h mr mc i : Nat) :
    (Field.new w h).new_cell_at mr mc i = CellValue.Dead := by
  simp [Field.new_cell_at, cellAt_new, count_new_zero, Field.calc_new_value]

theorem new_Wf {w h : Nat} (hw : 0 < w) (hh : 0 < h) : (Field.new w h).Wf := by
  refine ⟨hw, hh, ?_, ?_⟩ <;> simp [Field.new]

theorem Field.ext_fields {a b : Field} (h1 : a.width = b.width) (h2 : a.height = b.height)
    (h3 : a.cells = b.cells) (h4 : a.swap_cells = b.swap_cells) : a = b := by
  cases a; cases b; simp_all

/-- Claim C2: for every constructed grid, `update` computes each cell of
the next generation by the standard Game of Life rule applied to the
count of Alive cells among its 8 toroidally-addressed neighbours
(`specRule`/`specLiveNeighbours` follow the spec's words). -/
theorem step_computes_standard_rule_on_torus :
    ∀ (f : Field), f.Wf → ∀ r c, r < f.height → c < f.width →
      (f.update).1.cells.getD (r * f.width + c) CellValue.Dead
        = specRule (f.cells.getD (r * f.width + c) CellValue.Dead)
            (f.specLiveNeighbours r c) := by
  intro f hf r c hr hc
  obtain ⟨_, u2, _⟩ := update_spec f hf
  have hidx : r * f.width + c < f.width * f.height := by
    have h := coords_index_lt (f := f) hr hc
    simpa [Field.coords_to_index_unchecked] using h
  rw [u2, if_pos hidx, Field.new_cell_at, index_div_width hc, index_mod_width hc,
    count_eq_spec f hr hc, calc_eq_specRule]
  rfl

/-- Claim C3: `update` returns `true` iff some cell of the newly computed
generation is Alive; stepping an all-Dead grid of any size leaves it all
Dead and returns `false`. -/
theorem step_liveness_and_all_dead :
    (∀ f : Field, f.Wf → ((f.update).2 = true ↔ CellValue.Alive ∈ (f.update).1.cells))
    ∧ ∀ w h : Nat, 0 < w → 0 < h →
        (Field.new w h).update = (Field.new w h, false) := by
  constructor
  · intro f hf
    obtain ⟨u1, u2, u3, _⟩ := update_spec f hf
    rw [u3, mem_iff_getD CellValue.Dead]
    constructor
    · rintro ⟨i, hi, he⟩
      exact ⟨i, by rw [u1]; exact hi, by rw [u2 i, if_pos hi]; exact he⟩
    · rintro ⟨i, hi, he⟩
      rw [u1] at hi
      rw [u2 i, if_pos hi] at he
      exact ⟨i, hi, he⟩
  · intro w h hw hh
    obtain ⟨u1, u2, u3, uw, uh, usw⟩ := update_spec (Field.new w h) (new_Wf hw hh)
    have hnw : (Field.new w h).width = w := rfl
    have hnh : (Field.new w h).height = h := rfl
    have hcells : ((Field.new w h).update).1.cells
        = List.replicate (w * h) CellValue.Dead := by
      rw [List.eq_replicate_iff]
      constructor
      · rw [u1, hnw, hnh]
      · intro b hb
        rw [mem_iff_getD CellValue.Dead] at hb
        obtain ⟨i, hi, he⟩ := hb
        rw [u2 i] at he
        rw [← he]
        split
        · rw [new_cell_at_new]
        · rfl
    have hflag : ((Field.new w h).update).2 = false := by
      rcases Bool.eq_false_or_eq_true ((Field.new w h).update).2 with hb | hb
      · rw [u3] at hb
        obtain ⟨i, _, he⟩ := hb
        rw [new_cell_at_new] at he
        exact absurd he (by simp)
      · exact hb
    have hfield : ((Field.new w h).update).1 = Field.new w h := by
      apply Field.ext_fields
      · rw [uw, hnw]
      · rw [uh, hnh]
      · rw [hcells]
        show _ = (Field.new w h).cells
        simp [Field.new]
      · rw [usw]
        show (Field.new w h).cells = (Field.new w h).swap_cells
        simp [Field.new]
    calc (Field.new w h).update
        = (((Field.new w h).update).1, ((Field.new w h).update).2) := rfl
      _ = (Field.new w h, false) := by rw [hfield, hflag]

/-- Claim C9: on a well-formed grid, every buffer index `update` computes
is in bounds: the write index of each cell is within the swap buffer and
all eight neighbour read indices are within the cells buffer (and the
neighbour count is exactly the sum of the cells read at those indices),
so the step always completes without out-of-range access. -/
theorem update_indices_in_bounds :
    ∀ (f : Field), f.Wf → ∀ r c, r < f.height → c < f.width →
      (f.coords_to_index_unchecked r c < f.swap_cells.length
      ∧ ∀ i ∈ f.neighbour_indices r c (f.height - 1) (f.width - 1), i < f.cells.length)
      ∧ f.count_live_neighbours r c (f.height - 1) (f.width - 1)
          = ((f.neighbour_indices r c (f.height - 1) (f.width - 1)).map
              fun i => (f.cellAt i).toNat).sum := by
  intro f hf r c hr hc
  obtain ⟨hw, hh, hcl, hsl⟩ := hf
  refine ⟨⟨?_, ?_⟩, ?_⟩
  · rw [hsl]
    exact coords_index_lt hr hc
  · intro i hi
    rw [hcl]
    have hb : ∀ r' c', r' ≤ f.height - 1 → c' ≤ f.width - 1 →
        f.coords_to_index_unchecked r' c' < f.width * f.height := by
      intro r' c' h1 h2
      exact coords_index_lt (by omega) (by omega)
    have hrt := prev_coord_wrapped_le (show r ≤ f.height - 1 by omega)
    have hrb := next_coord_wrapped_le (v := r) (m := f.height - 1)
    have hcp := prev_coord_wrapped_le (show c ≤ f.width - 1 by omega)
    have hcr := next_coord_wrapped_le (v := c) (m := f.width - 1)
    simp only [Field.neighbour_indices, List.mem_cons, List.not_mem_nil, or_false] at hi
    rcases hi with h|h|h|h|h|h|h|h <;> subst h <;> exact hb _ _ (by omega) (by omega)
  · simp only [Field.count_live_neighbours, Field.neighbour_indices, List.map_cons,
      List.map_nil, List.sum_cons, List.sum_nil]
    omega

/-- Claim C6 (amended): on a well-formed grid whose width and height are
both at least 2, the wrap-arithmetic neighbour count (called with
`max_row = height-1`, `max_col = width-1`) equals the modulo-based
reference implementation at every in-range coordinate. -/
theorem count_fast_eq_slow :
    ∀ (f : Field), f.Wf → 2 ≤ f.width → 2 ≤ f.height →
      ∀ r c, r < f.height → c < f.width →
      f.count_live_neighbours r c (f.height - 1) (f.width - 1)
        = f.count_live_neighbours_slow r c := by
  intro f hf hw2 hh2 r c hr hc
  have hh1 : f.height - 1 ≠ 0 := by omega
  have hw1 : f.width - 1 ≠ 0 := by omega
  rw [count_eq_spec f hr hc]
  simp only [Field.count_live_neighbours_slow, List.foldl_cons, List.foldl_nil,
    Field.coords_to_index_unchecked]
  simp only [hh1, hw1, false_and, and_false, if_false, and_true, and_self,
    Nat.one_ne_zero, if_true, Nat.add_zero, Nat.mod_eq_of_lt hr, Nat.mod_eq_of_lt hc,
    Field.specLiveNeighbours, eq_self_iff_true, true_and]
  omega

/-- A well-formed 1×1 grid with its only cell Alive. -/
def oneByOne : Field :=
  { width := 1, height := 1, cells := [CellValue.Alive], swap_cells := [CellValue.Dead] }

/-- Claim C6 counterexample: on the 1×1 grid with an Alive cell the two
neighbour-count implementations disagree at the (in-range) coordinate
(0, 0): the wrap-arithmetic count reads the cell 8 times (8), while the
modulo-based loop's value-based skip of `(0, 0)` offsets also skips the
duplicated zero offsets coming from `height-1 = 0` and `width-1 = 0`,
reading it only 5 times (5). -/
theorem count_fast_ne_slow_at_one_by_one :
    oneByOne.Wf ∧ 0 < oneByOne.height ∧ 0 < oneByOne.width
    ∧ oneByOne.count_live_neighbours 0 0 (oneByOne.height - 1) (oneByOne.width - 1) = 8
    ∧ oneByOne.count_live_neighbours_slow 0 0 = 5 := by
  decide

/-- `Field::new(2, 3)`: width 2, height 3. -/
def twoByThree : Field := Field.new 2 3

/-- `Field::new(3, 2)`: width 3, height 2. -/
def threeByTwo : Field := Field.new 3 2

/-- Claim C1 (exhibiting the bug): `coords_to_index_checked` compares
`row` against `width` and `col` against `height` (swapped), so on a
2-wide 3-tall grid the spec-in-range coordinate (row 2, col 0) is
rejected by `toggle`/`get`, and on a 3-wide 2-tall grid the
spec-out-of-range coordinate (row 2, col 1) passes the check and yields
index 7, beyond the 6-element buffer (an out-of-bounds panic in the
source). -/
theorem coords_checked_bug_exhibit :
    twoByThree.Wf ∧ 2 < twoByThree.height ∧ 0 < twoByThree.width
    ∧ twoByThree.toggle_by_coords 2 0 = none
    ∧ twoByThree.get_by_coords 2 0 = none
    ∧ threeByTwo.Wf ∧ threeByTwo.height ≤ 2
    ∧ threeByTwo.coords_to_index_checked 2 1 = some 7
    ∧ threeByTwo.cells.length = 6 := by
  decide

/-- A well-formed 2×2 grid with three Alive cells, used as the concrete
input of several witnesses. -/
def exampleField : Field :=
  { width := 2, height := 2
    cells := [CellValue.Alive, CellValue.Alive, CellValue.Alive, CellValue.Dead]
    swap_cells := List.replicate 4 CellValue.Dead }

/-- Witness for claim C2 at the concrete 2×2 grid and cell (1, 0). -/
theorem step_computes_standard_rule_on_torus_witness :
    (exampleField.update).1.cells.getD (1 * exampleField.width + 0) CellValue.Dead
      = specRule (exampleField.cells.getD (1 * exampleField.width + 0) CellValue.Dead)
          (exampleField.specLiveNeighbours 1 0) :=
  step_computes_standard_rule_on_torus exampleField (by decide) 1 0 (by decide) (by decide)

/-- Witness for claim C9 at the concrete 2×2 grid and cell (0, 1). -/
theorem update_indices_in_bounds_witness :
    (exampleField.coords_to_index_unchecked 0 1 < exampleField.swap_cells.length
    ∧ ∀ i ∈ exampleField.neighbour_indices 0 1 (exampleField.height - 1)
        (exampleField.width - 1), i < exampleField.cells.length)
    ∧ exampleField.count_live_neighbours 0 1 (exampleField.height - 1)
        (exampleField.width - 1)
      = ((exampleField.neighbour_indices 0 1 (exampleField.height - 1)
          (exampleField.width - 1)).map fun i => (exampleField.cellAt i).toNat).sum :=
  update_indices_in_bounds exampleField (by decide) 0 1 (by decide) (by decide)

/-- Witness for the amended claim C6 at the concrete 2×2 grid and
cell (0, 1). -/
theorem count_fast_eq_slow_witness :
    exampleField.count_live_neighbours 0 1 (exampleField.height - 1)
        (exampleField.width - 1)
      = exampleField.count_live_neighbours_slow 0 1 :=
  count_fast_eq_slow exampleField (by decide) (by decide) (by decide) 0 1
    (by decide) (by decide)

theorem pushAll_inner {T : Type} (c : Nat) (hc : 1 ≤ c) :
    ∀ (vs : List T) (b : RingBuffer T), b.capacity = c → b.inner.length ≤ c →
      (b.pushAll vs).inner = (b.inner ++ vs).drop (b.inner.length + vs.length - c)
      ∧ (b.pushAll vs).inner.length ≤ c
      ∧ (b.pushAll vs).capacity = c := by
  intro vs
  induction vs with
  | nil =>
    intro b hcap hlen
    refine ⟨?_, hlen, hcap⟩
    simp [RingBuffer.pushAll, Nat.sub_eq_zero_of_le hlen]
  | cons v rest ih =>
    intro b hcap hlen
    have hstep : b.pushAll (v :: rest) = (b.push v).pushAll rest := by
      simp [RingBuffer.pushAll]
    have hpcap : (b.push v).capacity = c := by
      simp [RingBuffer.push, hcap]
    by_cases hfull : b.inner.length ≥ b.capacity
    · have hlen_eq : b.inner.length = c := by omega
      rcases hbi : b.inner with _ | ⟨x, xs⟩
      · rw [hbi] at hlen_eq
        simp at hlen_eq
        omega
      · have hpi : (b.push v).inner = xs ++ [v] := by
          show (if b.inner.length ≥ b.capacity then b.inner.tail else b.inner) ++ [v]
            = xs ++ [v]
          rw [if_pos hfull, hbi, List.tail_cons]
        have hxs : xs.length = c - 1 := by
          rw [hbi] at hlen_eq
          simp at hlen_eq
          omega
        have hplen : (b.push v).inner.length = c := by
          rw [hpi]
          simp only [List.length_append, List.length_cons, List.length_nil]
          omega
        obtain ⟨e1, e2, e3⟩ := ih (b.push v) hpcap (by omega)
        rw [hstep]
        refine ⟨?_, e2, e3⟩
        rw [e1, hplen, hpi]
        have el : xs ++ [v] ++ rest = xs ++ v :: rest := by simp
        rw [el]
        have ea : (x :: xs).length + (v :: rest).length - c
            = (c + rest.length - c) + 1 := by
          simp only [List.length_cons]
          omega
        rw [ea, List.cons_append, List.drop_succ_cons]
    · have hpi : (b.push v).inner = b.inner ++ [v] := by
        show (if b.inner.length ≥ b.capacity then b.inner.tail else b.inner) ++ [v]
          = b.inner ++ [v]
        rw [if_neg hfull]
      have hplen : (b.push v).inner.length = b.inner.length + 1 := by
        rw [hpi]
        simp
      obtain ⟨e1, e2, e3⟩ := ih (b.push v) hpcap (by rw [hplen]; omega)
      rw [hstep]
      refine ⟨?_, e2, e3⟩
      rw [e1, hplen, hpi]
      have el : b.inner ++ [v] ++ rest = b.inner ++ v :: rest := by simp
      have ea : b.inner.length + (v :: rest).length - c
          = b.inner.length + 1 + rest.length - c := by
        rw [List.length_cons]
        omega
      rw [el, ea]

/-- Claim C5: a `RingBuffer` of capacity `c ≥ 1`, after `c + k` pushes
(`k ≥ 1`), holds exactly the `c` most recent values in oldest-to-newest
order (the concatenated `as_slices` spans), and after every push the
length is at most `c`: each push on a full buffer evicts exactly the
single oldest element. -/
theorem ring_buffer_fifo :
    ∀ (T : Type) (c k : Nat) (vs : List T), 1 ≤ c → 1 ≤ k → vs.length = c + k →
      ((RingBuffer.new T c).pushAll vs).as_slices.1
          ++ ((RingBuffer.new T c).pushAll vs).as_slices.2 = vs.drop k
      ∧ ((RingBuffer.new T c).pushAll vs).len = c
      ∧ ∀ p, ((RingBuffer.new T c).pushAll (vs.take p)).len ≤ c := by
  intro T c k vs hc hk hlen
  obtain ⟨e1, e2, e3⟩ := pushAll_inner c hc vs (RingBuffer.new T c) rfl
    (by simp [RingBuffer.new])
  have hdrop : ((RingBuffer.new T c).pushAll vs).inner = vs.drop k := by
    rw [e1]
    simp only [RingBuffer.new, List.nil_append, List.length_nil, Nat.zero_add]
    rw [hlen]
    congr 1
    omega
  refine ⟨?_, ?_, ?_⟩
  · simp [RingBuffer.as_slices, hdrop]
  · rw [RingBuffer.len, hdrop]
    simp [hlen]
  · intro p
    obtain ⟨_, f2, _⟩ := pushAll_inner c hc (vs.take p) (RingBuffer.new T c) rfl
      (by simp [RingBuffer.new])
    exact f2

/-- Witness for claim C5: capacity 2, three pushes keep the last two. -/
theorem ring_buffer_fifo_witness :
    ((RingBuffer.new Nat 2).pushAll [10, 20, 30]).as_slices.1
        ++ ((RingBuffer.new Nat 2).pushAll [10, 20, 30]).as_slices.2
      = [10, 20, 30].drop 1
    ∧ ((RingBuffer.new Nat 2).pushAll [10, 20, 30]).len = 2
    ∧ ∀ p, ((RingBuffer.new Nat 2).pushAll ([10, 20, 30].take p)).len ≤ 2 :=
  ring_buffer_fifo Nat 2 1 [10, 20, 30] (by decide) (by decide) (by decide)

/-! ### Parsing and serialization lemmas -/

theorem parse_cells_of_valid {cs : List Char} (h : ∀ c ∈ cs, c = '#' ∨ c = '_') :
    parse_cells cs = Except.ok (cs.map charToCell) := by
  induction cs with
  | nil => rfl
  | cons c rest ih =>
    have hc := h c (by simp)
    have hrest := ih fun x hx => h x (by simp [hx])
    rcases hc with hc | hc
    · subst hc
      simp [parse_cells, hrest, charToCell]
    · subst hc
      simp [parse_cells, hrest, charToCell]

theorem parse_cells_ok_valid {cs : List Char} {vs : List CellValue}
    (h : parse_cells cs = Except.ok vs) :
    (∀ c ∈ cs, c = '#' ∨ c = '_') ∧ vs = cs.map charToCell := by
  induction cs generalizing vs with
  | nil =>
    simp [parse_cells] at h
    subst h
    simp
  | cons c rest ih =>
    by_cases hc : c = '#'
    · subst hc
      simp only [parse_cells, if_pos rfl] at h
      rcases hrec : parse_cells rest with e | vec
      · rw [hrec] at h
        simp at h
      · rw [hrec] at h
        simp at h
        obtain ⟨hvalid, hmap⟩ := ih hrec
        subst h
        refine ⟨?_, ?_⟩
        · intro x hx
          rcases List.mem_cons.mp hx with hx | hx
          · exact Or.inl hx
          · exact hvalid x hx
        · simp [charToCell, hmap]
    · by_cases hc2 : c = '_'
      · subst hc2
        simp only [parse_cells, if_neg (show ¬('_' = '#') by decide), if_pos rfl] at h
        rcases hrec : parse_cells rest with e | vec
        · rw [hrec] at h
          simp at h
        · rw [hrec] at h
          simp at h
          obtain ⟨hvalid, hmap⟩ := ih hrec
          subst h
          refine ⟨?_, ?_⟩
          · intro x hx
            rcases List.mem_cons.mp hx with hx | hx
            · exact Or.inr hx
            · exact hvalid x hx
          · simp [charToCell, if_neg hc, hmap]
      · simp only [parse_cells, if_neg hc, if_neg hc2] at h
        exact absurd h (by simp)

theorem parse_cells_err_eq {cs : List Char} {e : ParseError}
    (h : parse_cells cs = Except.error e) : e = ParseError.UnknownChar := by
  induction cs generalizing e with
  | nil => simp [parse_cells] at h
  | cons c rest ih =>
    by_cases hc : c = '#'
    · subst hc
      simp only [parse_cells, if_pos rfl] at h
      rcases hrec : parse_cells rest with e' | vec
      · rw [hrec] at h
        simp at h
        subst h
        exact ih hrec
      · rw [hrec] at h
        simp at h
    · by_cases hc2 : c = '_'
      · subst hc2
        simp only [parse_cells, if_neg (show ¬('_' = '#') by decide), if_pos rfl] at h
        rcases hrec : parse_cells rest with e' | vec
        · rw [hrec] at h
          simp at h
          subst h
          exact ih hrec
        · rw [hrec] at h
          simp at h
      · simp only [parse_cells, if_neg hc, if_neg hc2] at h
        injection h with h2
        exact h2.symm

theorem parse_cells_not_valid {cs : List Char} (h : ¬ ∀ c ∈ cs, c = '#' ∨ c = '_') :
    parse_cells cs = Except.error ParseError.UnknownChar := by
  rcases hres : parse_cells cs with e | vs
  · rw [parse_cells_err_eq hres]
  · exact absurd (parse_cells_ok_valid hres).1 h

theorem map_cellChar_charToCell {cs : List Char} (h : ∀ c ∈ cs, c = '#' ∨ c = '_') :
    (cs.map charToCell).map cellChar = cs := by
  rw [List.map_map]
  have hid : ∀ c ∈ cs, (cellChar ∘ charToCell) c = c := by
    intro c hc
    rcases h c hc with hc' | hc' <;> subst hc' <;> rfl
  calc cs.map (cellChar ∘ charToCell) = cs.map id := List.map_congr_left hid
    _ = cs := List.map_id cs

/-- The complete behaviour of the `from_str` line loop when the expected
width is already `some w`: it reports `UnknownChar` exactly when scanning
the lines in order meets an invalid character first, `WidthMismatch`
exactly when it meets a deviating trimmed width first (characters of a
line are checked before its width), and succeeds exactly when every line
is valid with trimmed width `w`, producing the decoded lines. -/
theorem parse_lines_some_spec (w : Nat) (ls : List (List Char)) :
    (parse_lines ls (some w) = Except.error ParseError.UnknownChar
      ↔ ∃ k, k < ls.length
          ∧ (∀ j, j < k → lineValid (ls.getD j []) ∧ trimLen (ls.getD j []) = w)
          ∧ ¬ lineValid (ls.getD k []))
    ∧ (parse_lines ls (some w) = Except.error ParseError.WidthMismatch
      ↔ ∃ k, k < ls.length
          ∧ (∀ j, j < k → lineValid (ls.getD j []) ∧ trimLen (ls.getD j []) = w)
          ∧ lineValid (ls.getD k []) ∧ trimLen (ls.getD k []) ≠ w)
    ∧ ((∀ k, k < ls.length → lineValid (ls.getD k []) ∧ trimLen (ls.getD k []) = w)
        → parse_lines ls (some w)
            = Except.ok (some w, ls.map fun l => (rustTrim l).map charToCell))
    ∧ (∀ res, parse_lines ls (some w) = Except.ok res
        → ∀ k, k < ls.length → lineValid (ls.getD k []) ∧ trimLen (ls.getD k []) = w) := by
  induction ls with
  | nil =>
    refine ⟨?_, ?_, ?_, ?_⟩
    · simp [parse_lines]
    · simp [parse_lines]
    · intro _
      simp [parse_lines]
    · intro res _ k hk
      simp at hk
  | cons l rest ih =>
    obtain ⟨ihUC, ihWM, ihOK, ihINV⟩ := ih
    by_cases hv : lineValid l
    · have hfl : from_str_line l = Except.ok ((rustTrim l).map charToCell) :=
        parse_cells_of_valid hv
      have hlen : ((rustTrim l).map charToCell).length = trimLen l := by
        simp [trimLen]
      by_cases hwid : trimLen l = w
      · have hred : parse_lines (l :: rest) (some w)
            = match parse_lines rest (some w) with
              | Except.error e => Except.error e
              | Except.ok (w', lines) =>
                  Except.ok (w', ((rustTrim l).map charToCell) :: lines) := by
          simp only [parse_lines, hfl, Option.getD_some, hlen, hwid, ne_eq,
            eq_self_iff_true, not_true, if_false]
        refine ⟨?_, ?_, ?_, ?_⟩
        · rcases hrec : parse_lines rest (some w) with e | res
          · have hstep : parse_lines (l :: rest) (some w) = Except.error e := by
              rw [hred, hrec]
            rw [hstep]
            constructor
            · intro h
              injection h with he
              subst he
              obtain ⟨k, hk, hpre, hbad⟩ := ihUC.mp hrec
              refine ⟨k + 1, by simp only [List.length_cons]; omega, ?_,
                by simpa using hbad⟩
              intro j hj
              rcases j with _ | j'
              · exact ⟨by simpa using hv, by simpa using hwid⟩
              · have hp := hpre j' (by omega)
                exact ⟨by simpa using hp.1, by simpa using hp.2⟩
            · rintro ⟨k, hk, hpre, hbad⟩
              rcases k with _ | k'
              · exact absurd hv (by simpa using hbad)
              · have hr : parse_lines rest (some w)
                    = Except.error ParseError.UnknownChar :=
                  ihUC.mpr ⟨k', by simp only [List.length_cons] at hk; omega,
                    fun j hj => by
                      have hp := hpre (j + 1) (by omega)
                      exact ⟨by simpa using hp.1, by simpa using hp.2⟩,
                    by simpa using hbad⟩
                rw [hrec] at hr
                exact hr
          · obtain ⟨w', lines⟩ := res
            have hstep : parse_lines (l :: rest) (some w)
                = Except.ok (w', ((rustTrim l).map charToCell) :: lines) := by
              rw [hred, hrec]
            rw [hstep]
            have hinv := ihINV (w', lines) hrec
            constructor
            · intro h
              exact absurd h (by simp)
            · rintro ⟨k, hk, hpre, hbad⟩
              rcases k with _ | k'
              · exact absurd hv (by simpa using hbad)
              · have hk' := hinv k' (by simp only [List.length_cons] at hk; omega)
                exact absurd hk'.1 (by simpa using hbad)
        · rcases hrec : parse_lines rest (some w) with e | res
          · have hstep : parse_lines (l :: rest) (some w) = Except.error e := by
              rw [hred, hrec]
            rw [hstep]
            constructor
            · intro h
              injection h with he
              subst he
              obtain ⟨k, hk, hpre, hok, hbad⟩ := ihWM.mp hrec
              refine ⟨k + 1, by simp only [List.length_cons]; omega, ?_,
                by simpa using hok, by simpa using hbad⟩
              intro j hj
              rcases j with _ | j'
              · exact ⟨by simpa using hv, by simpa using hwid⟩
              · have hp := hpre j' (by omega)
                exact ⟨by simpa using hp.1, by simpa using hp.2⟩
            · rintro ⟨k, hk, hpre, hok, hbad⟩
              rcases k with _ | k'
              · exact absurd hwid (by simpa using hbad)
              · have hr : parse_lines rest (some w)
                    = Except.error ParseError.WidthMismatch :=
                  ihWM.mpr ⟨k', by simp only [List.length_cons] at hk; omega,
                    fun j hj => by
                      have hp := hpre (j + 1) (by omega)
                      exact ⟨by simpa using hp.1, by simpa using hp.2⟩,
                    by simpa using hok, by simpa using hbad⟩
                rw [hrec] at hr
                exact hr
          · obtain ⟨w', lines⟩ := res
            have hstep : parse_lines (l :: rest) (some w)
                = Except.ok (w', ((rustTrim l).map charToCell) :: lines) := by
              rw [hred, hrec]
            rw [hstep]
            have hinv := ihINV (w', lines) hrec
            constructor
            · intro h
              exact absurd h (by simp)
            · rintro ⟨k, hk, hpre, hok, hbad⟩
              rcases k with _ | k'
              · exact absurd hwid (by simpa using hbad)
              · have hk' := hinv k' (by simp only [List.length_cons] at hk; omega)
                exact absurd hk'.2 (by simpa using hbad)
        · intro hall
          have hall' : ∀ k, k < rest.length →
              lineValid (rest.getD k []) ∧ trimLen (rest.getD k []) = w := by
            intro k hk
            have hp := hall (k + 1) (by simp only [List.length_cons]; omega)
            exact ⟨by simpa using hp.1, by simpa using hp.2⟩
          rw [hred, ihOK hall']
          simp
        · intro res hres k hk
          rcases hrec : parse_lines rest (some w) with e | res'
          · have hstep : parse_lines (l :: rest) (some w) = Except.error e := by
              rw [hred, hrec]
            rw [hstep] at hres
            exact absurd hres (by simp)
          · obtain ⟨w', lines⟩ := res'
            have hinv := ihINV (w', lines) hrec
            rcases k with _ | k'
            · exact ⟨by simpa using hv, by simpa using hwid⟩
            · have hp := hinv k' (by simp only [List.length_cons] at hk; omega)
              exact ⟨by simpa using hp.1, by simpa using hp.2⟩
      · have hred : parse_lines (l :: rest) (some w)
            = Except.error ParseError.WidthMismatch := by
          simp only [parse_lines, hfl, Option.getD_some, hlen]
          rw [if_pos hwid]
        refine ⟨?_, ?_, ?_, ?_⟩
        · rw [hred]
          constructor
          · intro h
            simp at h
          · rintro ⟨k, hk, hpre, hbad⟩
            rcases k with _ | k'
            · exact absurd hv (by simpa using hbad)
            · exact absurd (by simpa using (hpre 0 (by omega)).2) hwid
        · rw [hred]
          constructor
          · intro _
            exact ⟨0, by simp, fun j hj => absurd hj (by omega),
              by simpa using hv, by simpa using hwid⟩
          · intro _
            rfl
        · intro hall
          exact absurd (by simpa using (hall 0 (by simp)).2) hwid
        · intro res hres k hk
          rw [hred] at hres
          exact absurd hres (by simp)
    · have hfl : from_str_line l = Except.error ParseError.UnknownChar :=
        parse_cells_not_valid hv
      have hred : parse_lines (l :: rest) (some w)
          = Except.error ParseError.UnknownChar := by
        simp only [parse_lines, hfl]
      refine ⟨?_, ?_, ?_, ?_⟩
      · rw [hred]
        constructor
        · intro _
          exact ⟨0, by simp, fun j hj => absurd hj (by omega), by simpa using hv⟩
        · intro _
          rfl
      · rw [hred]
        constructor
        · intro h
          simp at h
        · rintro ⟨k, hk, hpre, hok, hbad⟩
          rcases k with _ | k'
          · exact absurd (by simpa using hok) hv
          · exact absurd (by simpa using (hpre 0 (by omega)).1) hv
      · intro hall
        exact absurd (by simpa using (hall 0 (by simp)).1) hv
      · intro res hres k hk
        rw [hred] at hres
        exact absurd hres (by simp)

theorem dropWhile_cons_prop {p : α → Bool} {l : List α} {x : α} {xs : List α}
    (h : l.dropWhile p = x :: xs) : p x = false := by
  induction l with
  | nil => simp at h
  | cons a as ih =>
    rw [List.dropWhile_cons] at h
    by_cases hpa : p a = true
    · rw [if_pos hpa] at h
      exact ih h
    · rw [if_neg hpa] at h
      injection h with h1 _
      subst h1
      simpa using hpa

theorem rustTrimEnd_cons {c : Char} (hc : isRustWhitespace c = false) (x : List Char) :
    rustTrimEnd (c :: x) = c :: rustTrimEnd x := by
  unfold rustTrimEnd
  rw [List.reverse_cons, List.dropWhile_append]
  by_cases hend : (x.reverse.dropWhile isRustWhitespace).isEmpty
  · rw [if_pos hend]
    have he : x.reverse.dropWhile isRustWhitespace = [] := by
      simpa [List.isEmpty_iff] using hend
    rw [List.dropWhile_cons, if_neg (by simp [hc]), he]
    rfl
  · rw [if_neg hend]
    simp

theorem rustTrim_cons_of_not_ws {c : Char} (hc : isRustWhitespace c = false)
    (x : List Char) : rustTrim (c :: x) = c :: rustTrimEnd x := by
  unfold rustTrim rustTrimStart
  rw [List.dropWhile_cons, if_neg (by simp [hc])]
  exact rustTrimEnd_cons hc x

theorem rustTrim_ne_nil_head {s : List Char} (h : rustTrim s ≠ []) :
    ∃ c t, rustTrim s = c :: t ∧ isRustWhitespace c = false := by
  unfold rustTrim at h ⊢
  rcases hd : rustTrimStart s with _ | ⟨c, t⟩
  · rw [hd] at h
    exact absurd rfl h
  · have hc : isRustWhitespace c = false := dropWhile_cons_prop hd
    exact ⟨c, rustTrimEnd t, rustTrimEnd_cons hc t, hc⟩

theorem rustLines_head_structure {c : Char} (hnl : ¬(c = '\n')) (hcr : ¬(c = '\r'))
    (t : List Char) :
    ∃ t1 restl, rustLines (c :: t) = (c :: t1) :: restl := by
  have hred : rustLines (c :: t)
      = match rustLines t with
        | [] => [[c]]
        | seg :: segs => (c :: seg) :: segs := by
    rw [rustLines, if_neg hnl, if_neg (fun hc => hcr hc.1)]
  rw [hred]
  rcases rustLines t with _ | ⟨seg, segs⟩
  · exact ⟨[], [], rfl⟩
  · exact ⟨seg, segs, rfl⟩

theorem trimLen_pos {c : Char} (hc : isRustWhitespace c = false) (u : List Char) :
    1 ≤ trimLen (c :: u) := by
  unfold trimLen
  rw [rustTrim_cons_of_not_ws hc]
  simp

theorem parse_lines_none_step (l : List Char) (rest : List (List Char)) :
    parse_lines (l :: rest) none
      = match from_str_line l with
        | Except.error e => Except.error e
        | Except.ok line =>
          match parse_lines rest (some line.length) with
          | Except.error e => Except.error e
          | Except.ok (w', lines) => Except.ok (w', line :: lines) := by
  rcases hfl : from_str_line l with e | line
  · simp only [parse_lines, hfl]
  · simp only [parse_lines, hfl, Option.getD_none, ne_eq, eq_self_iff_true, not_true,
      if_false]

theorem parse_lines_ne_empty (ls : List (List Char)) (w? : Option Nat) :
    parse_lines ls w? ≠ Except.error ParseError.EmptyString := by
  induction ls generalizing w? with
  | nil => simp [parse_lines]
  | cons l rest ih =>
    simp only [parse_lines]
    rcases hfl : from_str_line l with e | line
    · have he := parse_cells_err_eq hfl
      subst he
      simp
    · dsimp only
      by_cases hwid : line.length ≠ (w?.getD line.length)
      · rw [if_pos hwid]
        simp
      · rw [if_neg hwid]
        rcases hrec : parse_lines rest (some (w?.getD line.length)) with e | res
        · have h2 := ih (some (w?.getD line.length))
          rw [hrec] at h2
          simpa using h2
        · obtain ⟨w', lines⟩ := res
          simp

theorem parse_lines_none_eq_some (l : List Char) (rest : List (List Char)) :
    parse_lines (l :: rest) none = parse_lines (l :: rest) (some (trimLen l)) := by
  by_cases hv : lineValid l
  · have hfl : from_str_line l = Except.ok ((rustTrim l).map charToCell) :=
      parse_cells_of_valid hv
    have hlen : ((rustTrim l).map charToCell).length = trimLen l := by
      simp [trimLen]
    simp only [parse_lines, hfl, Option.getD_none, Option.getD_some, hlen]
  · have hfl : from_str_line l = Except.error ParseError.UnknownChar :=
      parse_cells_not_valid hv
    simp only [parse_lines, hfl]

/-- The complete behaviour of `Field.from_str`: `EmptyString` exactly on
whitespace-only input; otherwise the lines of the trimmed input are
scanned in order against the first line's trimmed width, each line's
characters checked before its width (`UnknownChar` before
`WidthMismatch`); on success the parsed grid is fully determined by the
trimmed lines and no failure ever returns a grid. -/
theorem from_str_spec (s : List Char) :
    (Field.from_str s = Except.error ParseError.EmptyString ↔ rustTrim s = [])
    ∧ (Field.from_str s = Except.error ParseError.UnknownChar
        ↔ ∃ k, k < (rustLines (rustTrim s)).length
            ∧ (∀ j, j < k → lineValid ((rustLines (rustTrim s)).getD j [])
                ∧ trimLen ((rustLines (rustTrim s)).getD j [])
                  = trimLen ((rustLines (rustTrim s)).getD 0 []))
            ∧ ¬ lineValid ((rustLines (rustTrim s)).getD k []))
    ∧ (Field.from_str s = Except.error ParseError.WidthMismatch
        ↔ ∃ k, k < (rustLines (rustTrim s)).length
            ∧ (∀ j, j < k → lineValid ((rustLines (rustTrim s)).getD j [])
                ∧ trimLen ((rustLines (rustTrim s)).getD j [])
                  = trimLen ((rustLines (rustTrim s)).getD 0 []))
            ∧ lineValid ((rustLines (rustTrim s)).getD k [])
            ∧ trimLen ((rustLines (rustTrim s)).getD k [])
              ≠ trimLen ((rustLines (rustTrim s)).getD 0 []))
    ∧ (∀ f, Field.from_str s = Except.ok f →
        rustTrim s ≠ []
        ∧ (∀ k, k < (rustLines (rustTrim s)).length →
            lineValid ((rustLines (rustTrim s)).getD k [])
            ∧ trimLen ((rustLines (rustTrim s)).getD k [])
              = trimLen ((rustLines (rustTrim s)).getD 0 []))
        ∧ f.width = trimLen ((rustLines (rustTrim s)).getD 0 [])
        ∧ f.height = (rustLines (rustTrim s)).length
        ∧ f.cells = ((rustLines (rustTrim s)).map fun l =>
            (rustTrim l).map charToCell).flatten
        ∧ f.swap_cells = List.replicate f.cells.length CellValue.Dead)
    ∧ ((rustTrim s ≠ []
        ∧ ∀ k, k < (rustLines (rustTrim s)).length →
            lineValid ((rustLines (rustTrim s)).getD k [])
            ∧ trimLen ((rustLines (rustTrim s)).getD k [])
              = trimLen ((rustLines (rustTrim s)).getD 0 []))
        → ∃ f, Field.from_str s = Except.ok f) := by
  by_cases hemp : rustTrim s = []
  · have hred : Field.from_str s = Except.error ParseError.EmptyString := by
      simp only [Field.from_str, if_pos hemp]
    have hL : rustLines (rustTrim s) = [] := by
      rw [hemp]
      rfl
    refine ⟨⟨fun _ => hemp, fun _ => hred⟩, ?_, ?_, ?_, ?_⟩
    · rw [hred, hL]
      constructor
      · intro h
        simp at h
      · rintro ⟨k, hk, _⟩
        simp at hk
    · rw [hred, hL]
      constructor
      · intro h
        simp at h
      · rintro ⟨k, hk, _⟩
        simp at hk
    · intro f hf
      rw [hred] at hf
      exact absurd hf (by simp)
    · rintro ⟨hne, _⟩
      exact absurd hemp hne
  · obtain ⟨c, t, hct, hcw⟩ := rustTrim_ne_nil_head hemp
    have hnl : ¬(c = '\n') := by
      intro e
      rw [e] at hcw
      exact absurd hcw (by decide)
    have hcr : ¬(c = '\r') := by
      intro e
      rw [e] at hcw
      exact absurd hcw (by decide)
    obtain ⟨t1, restl, hlines⟩ := rustLines_head_structure hnl hcr t
    have hgL : rustLines (rustTrim s) = (c :: t1) :: restl := by
      rw [hct]
      exact hlines
    have hfs2 : Field.from_str s
        = match parse_lines ((c :: t1) :: restl) (some (trimLen (c :: t1))) with
          | Except.error e => Except.error e
          | Except.ok (width, lines) =>
            Except.ok { width := width.getD 0, height := lines.length,
                        cells := lines.flatten,
                        swap_cells := List.replicate lines.flatten.length CellValue.Dead } := by
      simp only [Field.from_str, if_neg hemp]
      rw [hgL, parse_lines_none_eq_some]
    obtain ⟨sUC, sWM, sOK, sINV⟩ :=
      parse_lines_some_spec (trimLen (c :: t1)) ((c :: t1) :: restl)
    rw [hgL]
    simp only [List.getD_cons_zero]
    refine ⟨?_, ?_, ?_, ?_, ?_⟩
    · constructor
      · intro h
        rw [hfs2] at h
        rcases hrec : parse_lines ((c :: t1) :: restl) (some (trimLen (c :: t1)))
            with e | ⟨w', lines⟩
        · rw [hrec] at h
          injection h with he
          rw [he] at hrec
          exact absurd hrec (parse_lines_ne_empty _ _)
        · rw [hrec] at h
          exact absurd h (by simp)
      · intro h
        exact absurd h hemp
    · rw [hfs2]
      constructor
      · intro h
        rcases hrec : parse_lines ((c :: t1) :: restl) (some (trimLen (c :: t1)))
            with e | ⟨w', lines⟩
        · rw [hrec] at h
          injection h with he
          rw [he] at hrec
          exact sUC.mp hrec
        · rw [hrec] at h
          exact absurd h (by simp)
      · intro h
        rw [sUC.mpr h]
    · rw [hfs2]
      constructor
      · intro h
        rcases hrec : parse_lines ((c :: t1) :: restl) (some (trimLen (c :: t1)))
            with e | ⟨w', lines⟩
        · rw [hrec] at h
          injection h with he
          rw [he] at hrec
          exact sWM.mp hrec
        · rw [hrec] at h
          exact absurd h (by simp)
      · intro h
        rw [sWM.mpr h]
    · intro f hf
      rw [hfs2] at hf
      rcases hrec : parse_lines ((c :: t1) :: restl) (some (trimLen (c :: t1)))
          with e | ⟨w', lines⟩
      · rw [hrec] at hf
        exact absurd hf (by simp)
      · rw [hrec] at hf
        have hall := sINV (w', lines) hrec
        have hcanon := sOK hall
        rw [hrec] at hcanon
        injection hcanon with hpair
        injection hpair with hw' hlines'
        injection hf with hfeq
        subst hw'
        subst hlines'
        rw [← hfeq]
        refine ⟨hemp, hall, by simp, by simp, by simp, by simp⟩
    · rintro ⟨_, hall⟩
      have hcanon := sOK hall
      rw [hfs2, hcanon]
      exact ⟨_, rfl⟩

instance {ε α : Type} [DecidableEq ε] [DecidableEq α] : DecidableEq (Except ε α) :=
  fun a b =>
    match a, b with
    | .error e1, .error e2 =>
      if h : e1 = e2 then isTrue (by rw [h])
      else isFalse (by intro hc; injection hc; exact h (by assumption))
    | .error _, .ok _ => isFalse (by intro hc; exact Except.noConfusion hc)
    | .ok _, .error _ => isFalse (by intro hc; exact Except.noConfusion hc)
    | .ok a1, .ok a2 =>
      if h : a1 = a2 then isTrue (by rw [h])
      else isFalse (by intro hc; injection hc; exact h (by assumption))

theorem getD_mem_of_lt {l : List α} {k : Nat} (hk : k < l.length) (d : α) :
    l.getD k d ∈ l := by
  have he : l.getD k d = l[k] := by
    rw [List.getD_eq_getElem?_getD, List.getElem?_eq_getElem hk]
    rfl
  rw [he]
  exact List.getElem_mem hk

theorem chunks_flatten {w : Nat} (hw : 0 < w) (ls : List (List α))
    (h : ∀ x ∈ ls, x.length = w) : chunks w ls.flatten = ls := by
  induction ls with
  | nil => simp [chunks]
  | cons x rest ih =>
    have hx : x.length = w := h x (by simp)
    have hne : x ++ rest.flatten ≠ [] := by
      intro e
      have hx0 : x = [] := (List.append_eq_nil.mp e).1
      rw [hx0] at hx
      simp at hx
      omega
    rw [List.flatten_cons, chunks_cons_eq hw _ hne, List.take_left' hx,
      List.drop_left' hx, ih (fun y hy => h y (by simp [hy]))]

theorem from_str_ok_pos {s : List Char} {f : Field}
    (hf : Field.from_str s = Except.ok f) : 1 ≤ f.width ∧ 1 ≤ f.height := by
  obtain ⟨_, _, _, h4, _⟩ := from_str_spec s
  obtain ⟨hne, _, hw, hh, _, _⟩ := h4 f hf
  obtain ⟨c, t, hct, hcw⟩ := rustTrim_ne_nil_head hne
  have hnl : ¬(c = '\n') := fun e => by
    rw [e] at hcw
    exact absurd hcw (by decide)
  have hcr : ¬(c = '\r') := fun e => by
    rw [e] at hcw
    exact absurd hcw (by decide)
  obtain ⟨t1, restl, hlines⟩ := rustLines_head_structure hnl hcr t
  have hgL : rustLines (rustTrim s) = (c :: t1) :: restl := by
    rw [hct]
    exact hlines
  constructor
  · rw [hw, hgL]
    simp only [List.getD_cons_zero]
    exact trimLen_pos hcw t1
  · rw [hh, hgL]
    simp

/-- Claim C10: `from_str` is total — every input yields either a
`ParseError` or a grid, and on success the grid's width and height are
both at least 1 (the trimmed first line is nonempty), so the source's
`NonZeroUsize` conversions (`try_into().unwrap()`) cannot panic. -/
theorem from_str_total_positive_dims :
    ∀ (s : List Char) (f : Field), Field.from_str s = Except.ok f →
      1 ≤ f.width ∧ 1 ≤ f.height := by
  intro s f hf
  exact from_str_ok_pos hf

/-- The concrete grid parsed from the single-character input `"#"`. -/
def oneHash : Field :=
  { width := 1, height := 1, cells := [CellValue.Alive], swap_cells := [CellValue.Dead] }

/-- Witness for claim C10 at the concrete input `"#"`. -/
theorem from_str_total_positive_dims_witness :
    1 ≤ oneHash.width ∧ 1 ≤ oneHash.height :=
  from_str_total_positive_dims ['#'] oneHash (by decide)

/-- Claim C7 (amended): `from_str` fails with `EmptyString` iff the input
trims to nothing; otherwise the lines of the trimmed input are scanned in
order against the first line's trimmed width with each line's characters
validated before its width, so `UnknownChar` is returned iff an invalid
character occurs no later than the first width deviation, and
`WidthMismatch` iff a valid line with deviating width comes first; it
succeeds iff the input is nonempty after trimming and every trimmed line
is valid with the first line's width — on failure only the error value is
produced, never a grid. -/
theorem parse_error_characterization :
    ∀ s : List Char,
      (Field.from_str s = Except.error ParseError.EmptyString ↔ rustTrim s = [])
      ∧ (Field.from_str s = Except.error ParseError.UnknownChar
          ↔ ∃ k, k < (rustLines (rustTrim s)).length
              ∧ (∀ j, j < k → lineValid ((rustLines (rustTrim s)).getD j [])
                  ∧ trimLen ((rustLines (rustTrim s)).getD j [])
                    = trimLen ((rustLines (rustTrim s)).getD 0 []))
              ∧ ¬ lineValid ((rustLines (rustTrim s)).getD k []))
      ∧ (Field.from_str s = Except.error ParseError.WidthMismatch
          ↔ ∃ k, k < (rustLines (rustTrim s)).length
              ∧ (∀ j, j < k → lineValid ((rustLines (rustTrim s)).getD j [])
                  ∧ trimLen ((rustLines (rustTrim s)).getD j [])
                    = trimLen ((rustLines (rustTrim s)).getD 0 []))
              ∧ lineValid ((rustLines (rustTrim s)).getD k [])
              ∧ trimLen ((rustLines (rustTrim s)).getD k [])
                ≠ trimLen ((rustLines (rustTrim s)).getD 0 []))
      ∧ ((∃ f, Field.from_str s = Except.ok f)
          ↔ rustTrim s ≠ []
            ∧ ∀ k, k < (rustLines (rustTrim s)).length →
                lineValid ((rustLines (rustTrim s)).getD k [])
                ∧ trimLen ((rustLines (rustTrim s)).getD k [])
                  = trimLen ((rustLines (rustTrim s)).getD 0 [])) := by
  intro s
  obtain ⟨h1, h2, h3, h4, h5⟩ := from_str_spec s
  refine ⟨h1, h2, h3, ?_⟩
  constructor
  · rintro ⟨f, hf⟩
    obtain ⟨hne, hall, _⟩ := h4 f hf
    exact ⟨hne, hall⟩
  · intro h
    exact h5 h

/-- Claim C7 counterexample: on the input `"$\n##"` the two trimmed lines
have different character counts (1 and 2), yet `from_str` returns
`UnknownChar` (the invalid `'$'` on the first line is found before the
width comparison), not `InconsistentRowWidth` as the claim's width clause
demands. -/
theorem parse_width_error_counterexample :
    trimLen ((rustLines (rustTrim ['$', '\n', '#', '#'])).getD 0 []) = 1
    ∧ trimLen ((rustLines (rustTrim ['$', '\n', '#', '#'])).getD 1 []) = 2
    ∧ (rustLines (rustTrim ['$', '\n', '#', '#'])).length = 2
    ∧ Field.from_str ['$', '\n', '#', '#'] = Except.error ParseError.UnknownChar
    ∧ ParseError.UnknownChar ≠ ParseError.WidthMismatch := by
  decide

/-- Claim C8: every constructor (`new`, `generate_by_fn`, `from_str`)
produces a well-formed grid (both buffers of length `width * height`,
positive dimensions), and both mutating operations (`update`,
`toggle_by_coords`) preserve well-formedness and leave `width` and
`height` unchanged. -/
theorem construction_and_ops_preserve_invariant :
    (∀ w h, 0 < w → 0 < h → (Field.new w h).Wf
      ∧ (Field.new w h).width = w ∧ (Field.new w h).height = h)
    ∧ (∀ w h g, 0 < w → 0 < h → (Field.generate_by_fn w h g).Wf
      ∧ (Field.generate_by_fn w h g).width = w ∧ (Field.generate_by_fn w h g).height = h)
    ∧ (∀ (s : List Char) (f : Field), Field.from_str s = Except.ok f → f.Wf)
    ∧ (∀ f : Field, f.Wf → (f.update).1.Wf ∧ (f.update).1.width = f.width
        ∧ (f.update).1.height = f.height)
    ∧ (∀ (f : Field) (r c : Nat) (f' : Field), f.Wf → f.toggle_by_coords r c = some f' →
        f'.Wf ∧ f'.width = f.width ∧ f'.height = f.height) := by
  refine ⟨?_, ?_, ?_, ?_, ?_⟩
  · intro w h hw hh
    exact ⟨new_Wf hw hh, rfl, rfl⟩
  · intro w h g hw hh
    refine ⟨⟨hw, hh, ?_, ?_⟩, rfl, rfl⟩ <;> simp [Field.generate_by_fn]
  · intro s f hf
    obtain ⟨hwpos, hhpos⟩ := from_str_ok_pos hf
    obtain ⟨_, _, _, h4, _⟩ := from_str_spec s
    obtain ⟨hne, hall, hw, hh, hcells, hswap⟩ := h4 f hf
    have hclen : f.cells.length = f.height * f.width := by
      rw [hcells, List.length_flatten, List.map_map]
      have hrep : ((rustLines (rustTrim s)).map
          (List.length ∘ fun l => (rustTrim l).map charToCell))
          = List.replicate (rustLines (rustTrim s)).length f.width := by
        rw [List.eq_replicate_iff]
        refine ⟨by simp, ?_⟩
        intro b hb
        obtain ⟨l, hl, hbl⟩ := List.mem_map.mp hb
        obtain ⟨k, hk, hkl⟩ := List.mem_iff_getElem.mp hl
        have hgd : (rustLines (rustTrim s)).getD k [] = l := by
          rw [List.getD_eq_getElem?_getD, List.getElem?_eq_getElem hk]
          exact hkl ▸ rfl
        have := (hall k hk).2
        rw [hgd] at this
        rw [← hbl]
        simp only [Function.comp_apply, List.length_map]
        rw [hw]
        exact this
      rw [hrep, List.sum_const_nat, hh]
    exact ⟨hwpos, hhpos, by rw [hclen]; ring, by rw [hswap]; simp [hclen]; ring⟩
  · intro f hf
    obtain ⟨u1, _, _, uw, uh, usw⟩ := update_spec f hf
    obtain ⟨hw, hh, hc, _⟩ := hf
    refine ⟨⟨?_, ?_, ?_, ?_⟩, uw, uh⟩
    · rw [uw]
      exact hw
    · rw [uh]
      exact hh
    · rw [u1, uw, uh]
    · rw [usw, uw, uh]
      exact hc
  · intro f r c f' hf ht
    unfold Field.toggle_by_coords at ht
    rcases hchk : f.coords_to_index_checked r c with _ | idx
    · rw [hchk] at ht
      simp at ht
    · rw [hchk] at ht
      simp only [Option.some_bind] at ht
      rcases hget : f.cells.get? idx with _ | v
      · rw [hget] at ht
        simp at ht
      · rw [hget] at ht
        simp only [Option.map_some'] at ht
        injection ht with ht
        obtain ⟨hw, hh, hc, hs⟩ := hf
        refine ⟨⟨?_, ?_, ?_, ?_⟩, ?_, ?_⟩ <;> rw [← ht]
        · exact hw
        · exact hh
        · simp [hc]
        · exact hs

/-- Claim C4: for every text the spec's grammar accepts, parsing succeeds
and serializing the parsed grid reproduces the whitespace-normalized
input: every trimmed line followed by exactly one line break. -/
theorem parse_serialize_round_trip :
    ∀ s : List Char, grammarAccepts s →
      ∃ f, Field.from_str s = Except.ok f ∧ f.fmt = normalizeText s := by
  intro s hg
  obtain ⟨hne, hlines⟩ := hg
  have hall : ∀ k, k < (rustLines (rustTrim s)).length →
      lineValid ((rustLines (rustTrim s)).getD k [])
      ∧ trimLen ((rustLines (rustTrim s)).getD k [])
        = trimLen ((rustLines (rustTrim s)).getD 0 []) := by
    intro k hk
    have hm := hlines ((rustLines (rustTrim s)).getD k []) (getD_mem_of_lt hk [])
    exact ⟨hm.1, hm.2⟩
  obtain ⟨_, _, _, h4, h5⟩ := from_str_spec s
  obtain ⟨f, hf⟩ := h5 ⟨hne, hall⟩
  obtain ⟨_, _, hw, hh, hcells, _⟩ := h4 f hf
  refine ⟨f, hf, ?_⟩
  have hwpos : 0 < f.width := (from_str_ok_pos hf).1
  have hlenF : ∀ x ∈ (rustLines (rustTrim s)).map fun l => (rustTrim l).map charToCell,
      x.length = f.width := by
    intro x hx
    obtain ⟨l, hl, hFx⟩ := List.mem_map.mp hx
    rw [← hFx]
    simp only [List.length_map]
    rw [hw]
    exact (hlines l hl).2
  rw [Field.fmt, hcells, chunks_flatten hwpos _ hlenF, normalizeText, List.flatMap_map,
    List.flatMap_def, List.flatMap_def]
  congr 1
  apply List.map_congr_left
  intro l hl
  rw [map_cellChar_charToCell (hlines l hl).1]

/-- Witness for claim C4 at the concrete input `"##\n__"`. -/
theorem parse_serialize_round_trip_witness :
    ∃ f, Field.from_str ['#', '#', '\n', '_', '_'] = Except.ok f
      ∧ f.fmt = normalizeText ['#', '#', '\n', '_', '_'] :=
  parse_serialize_round_trip ['#', '#', '\n', '_', '_'] (by decide)

end RustWasm
